import Mathlib

/-!
Verification of the course-progression planner in `CourseProgressions.py`.

The Python source is shallowly embedded as executable Lean definitions:

* A CPV (course progression value) is a decimal of the form `A.BCD`; the
  source stores it as a float and only ever (a) truncates it to its integer
  part and (b) compares two CPVs for equality.  We store the exact decimal
  as a natural number of thousandths (`A.BCD` becomes `A * 1000 + BCD`),
  for which truncation is `cpv / 1000` and equality is `Nat` equality; both
  agree with the float operations on the three-fractional-digit decimals
  the program uses.
* Python `set`s of course-code strings become `Finset String`; `len` is
  `Finset.card`, `add`/`remove`/`intersection`/`difference` become
  `insert`/`erase`/`∩`/`\`.  Where the source linearizes a set
  (`list(s)`, `" ".join(s)`, iteration) the order is implementation
  defined in Python; we canonicalize by the lexicographic linearization
  `sortCodes`, the order the source's own doctests assert.
* Python string comparison is lexicographic on code points; `codes_le`
  implements exactly that on `String.data` (kernel-reducible, unlike the
  library order on `String`).
* `print`/`output.write` side effects are modelled by returning the
  diagnostic events (`Msg`) and the per-semester schedule lines instead of
  writing them to a stream.
-/

/-! ## Parameters and settings (source lines 56-59) -/

def ELECTIVE_PREFIX : String := "Elective"

def LOAD : Nat := 4             -- max courses each semester

def COURSES_NEEDED : Nat := 24  -- for a three-year degree

def MAX_SEMESTERS : Nat := 10   -- for full-time students

/-! ## Lexicographic order on code strings

Python compares strings lexicographically by code point.  We implement the
comparison directly on the underlying character lists so that it reduces in
the kernel (the library's `String.ltb` does not). -/

def codes_le : List Char → List Char → Bool
  | [], _ => true
  | _ :: _, [] => false
  | c :: cs, d :: ds =>
    if c.toNat < d.toNat then true
    else if d.toNat < c.toNat then false
    else codes_le cs ds

def str_le (a b : String) : Bool := codes_le a.data b.data

/-- Propositional form of `str_le`, for use with the sorting library. -/
def strOrd : String → String → Prop := fun a b => str_le a b = true

instance : DecidableRel strOrd := fun a b => instDecidableEqBool (str_le a b) true

theorem codes_le_total : ∀ a b : List Char, codes_le a b = true ∨ codes_le b a = true := by
  intro a
  induction a with
  | nil => intro b; left; rfl
  | cons c cs ih =>
    intro b
    cases b with
    | nil => right; rfl
    | cons d ds =>
      by_cases h1 : c.toNat < d.toNat
      · left; simp [codes_le, h1]
      · by_cases h2 : d.toNat < c.toNat
        · right; simp [codes_le, h2]
        · rcases ih ds with h | h
          · left; simp [codes_le, h1, h2, h]
          · right; simp [codes_le, h1, h2, h]

theorem codes_le_trans : ∀ a b c : List Char,
    codes_le a b = true → codes_le b c = true → codes_le a c = true := by
  intro a
  induction a with
  | nil => intro b c _ _; rfl
  | cons x xs ih =>
    intro b c hab hbc
    cases b with
    | nil => simp [codes_le] at hab
    | cons y ys =>
      cases c with
      | nil => simp [codes_le] at hbc
      | cons z zs =>
        simp only [codes_le] at hab hbc ⊢
        by_cases hxy : x.toNat < y.toNat
        · by_cases hyz : y.toNat < z.toNat
          · rw [if_pos (by omega)]
          · by_cases hzy : z.toNat < y.toNat
            · rw [if_neg hyz, if_pos hzy] at hbc; simp at hbc
            · rw [if_pos (by omega)]
        · by_cases hyx : y.toNat < x.toNat
          · rw [if_neg hxy, if_pos hyx] at hab; simp at hab
          · by_cases hyz : y.toNat < z.toNat
            · rw [if_pos (by omega)]
            · by_cases hzy : z.toNat < y.toNat
              · rw [if_neg hyz, if_pos hzy] at hbc; simp at hbc
              · rw [if_neg (by omega : ¬ x.toNat < z.toNat),
                    if_neg (by omega : ¬ z.toNat < x.toNat)]
                rw [if_neg hxy, if_neg hyx] at hab
                rw [if_neg hyz, if_neg hzy] at hbc
                exact ih ys zs hab hbc

theorem codes_le_antisymm : ∀ a b : List Char,
    codes_le a b = true → codes_le b a = true → a = b := by
  intro a
  induction a with
  | nil =>
    intro b _ hba
    cases b with
    | nil => rfl
    | cons d ds => simp [codes_le] at hba
  | cons c cs ih =>
    intro b hab hba
    cases b with
    | nil => simp [codes_le] at hab
    | cons d ds =>
      simp only [codes_le] at hab hba
      by_cases h1 : c.toNat < d.toNat
      · rw [if_neg (by omega), if_pos h1] at hba; simp at hba
      · by_cases h2 : d.toNat < c.toNat
        · rw [if_neg h1, if_pos h2] at hab; simp at hab
        · have hn : c.toNat = d.toNat := by omega
          have hc : c = d := Char.eq_of_val_eq (UInt32.toNat.inj hn)
          rw [if_neg h1, if_neg h2] at hab
          rw [if_neg (by omega), if_neg (by omega)] at hba
          rw [hc, ih ds hab hba]

theorem str_le_antisymm {a b : String} (hab : str_le a b = true)
    (hba : str_le b a = true) : a = b := by
  cases a with
  | mk da =>
    cases b with
    | mk db =>
      have : da = db := codes_le_antisymm da db hab hba
      rw [this]

instance : IsTrans String strOrd :=
  ⟨fun a b c hab hbc => codes_le_trans a.data b.data c.data hab hbc⟩

instance : IsAntisymm String strOrd :=
  ⟨fun _ _ hab hba => str_le_antisymm hab hba⟩

instance : IsTotal String strOrd :=
  ⟨fun a b => codes_le_total a.data b.data⟩

/-- Canonical linearization of a finite set of code strings, in ascending
lexicographic order.  This models Python's (implementation-defined)
`list(s)` / set-iteration order; the canonical order is the one the
source's own doctests assert for `pretty`. -/
def sortCodes (s : Finset String) : List String :=
  Quot.liftOn s.val (fun l => List.insertionSort strOrd l) fun _ _ h =>
    List.eq_of_perm_of_sorted
      ((List.perm_insertionSort strOrd _).trans
        (h.trans (List.perm_insertionSort strOrd _).symm))
      (List.sorted_insertionSort strOrd _) (List.sorted_insertionSort strOrd _)

theorem sortCodes_sorted (s : Finset String) : List.Sorted strOrd (sortCodes s) := by
  rcases s with ⟨val, nodup⟩
  revert nodup
  induction val using Quot.inductionOn with
  | h l => intro _; exact List.sorted_insertionSort strOrd l

theorem sortCodes_nodup (s : Finset String) : (sortCodes s).Nodup := by
  rcases s with ⟨val, nodup⟩
  revert nodup
  induction val using Quot.inductionOn with
  | h l => intro nd; exact ((List.perm_insertionSort strOrd l).nodup_iff).mpr nd

theorem mem_sortCodes {s : Finset String} {a : String} :
    a ∈ sortCodes s ↔ a ∈ s := by
  rcases s with ⟨val, nodup⟩
  revert nodup
  induction val using Quot.inductionOn with
  | h l =>
    intro _
    exact (List.perm_insertionSort strOrd l).mem_iff

/-! ## Course objects (source lines 228-263)

A `Course` records its code, title and course progression value.  The CPV
`A.BCD` is stored as the natural number `A * 1000 + BCD` (thousandths); see
the header comment. -/

structure Course where
  code : String
  title : String
  cpv : Nat
deriving DecidableEq

def dummy_course : Course := ⟨"", "", 0⟩

/-- Source line 487 computes `int(course.cpv)`; on the nonnegative decimals
the program uses this is the integer part `A`, here `cpv / 1000`. -/
def cpv_int (course : Course) : Nat := course.cpv / 1000

def Course.is_done (course : Course) (done : Finset String) : Bool :=
  decide (course.code ∈ done)

/-- Python `code.startswith(p)`, implemented on the character lists so it
reduces in the kernel. -/
def str_startsWith (code p : String) : Bool := p.data.isPrefixOf code.data

def Course.is_elective (course : Course) (level : Nat := 0) : Bool :=
  str_startsWith course.code
    ( ELECTIVE_PREFIX ++ (if 0 < level then toString level else ""))

/-! ## Year level of a course code (source lines 415-420)

Python reads a single digit character and converts it with `int`; for the
well-formed codes the program uses this is the digit's value.  (On a
malformed code Python would raise; the total model reads `'0'` past the end
of the string.) -/

def char_digit (code : String) (i : Nat) : Nat :=
  (code.data.getD i '0').toNat - ('0').toNat

def level (code : String) : Nat :=
  if str_startsWith code ELECTIVE_PREFIX then
    char_digit code ELECTIVE_PREFIX.length
  else
    char_digit code 3

/-! ## Prerequisites (source lines 169-196)

An entry of a `PreReq`'s check list is either a course code, a nested
`PreReq`, or a value of any other type (`unknown`).  On an unknown child
the else branch (source line 195) evaluates
`"WARNING: unknown prereq ignored: " + chk`; since `chk` is not a `str`
there, that concatenation raises `TypeError` before anything is printed,
so evaluation aborts instead of warning and continuing (compare source
line 91, where the analogous warning wraps its value in `str(...)`).  The
evaluator is therefore fallible: `none` models the raised `TypeError`,
propagated out of nested rules and aborting the counting loop at the
first unknown child, exactly where Python raises. -/

mutual
inductive PreReqEntry where
  | code (s : String) : PreReqEntry
  | sub (p : PreReq) : PreReqEntry
  | unknown : PreReqEntry
inductive PreReq where
  | node (checks : List PreReqEntry) (num_required : Nat) : PreReq
end

/-- The `PreReq.__init__` constructor: `num = 0` (the default) is a
shortcut for `len(checks)`, i.e. an all-of rule. -/
def PreReq.make (checks : List PreReqEntry) (num : Nat := 0) : PreReq :=
  .node checks (if 0 < num then num else checks.length)

mutual
def PreReq.is_satisfied (p : PreReq) (done : Finset String) : Option Bool :=
  match p with
  | .node checks num_required =>
    match countSat checks done with
    | some num => some (num_required ≤ num)
    | none => none
def countSat (checks : List PreReqEntry) (done : Finset String) : Option Nat :=
  match checks with
  | [] => some 0
  | chk :: rest =>
    match entrySat chk done with
    | some b =>
      match countSat rest done with
      | some n => some ((if b then 1 else 0) + n)
      | none => none
    | none => none
def entrySat (chk : PreReqEntry) (done : Finset String) : Option Bool :=
  match chk with
  | .code s => some (decide (s ∈ done))
  | .sub p => p.is_satisfied done
  | .unknown => none
end

/-! ## Rank of a code in a program (source lines 430-436) -/

def get_rank (code : String) (program : List Course) : Nat :=
  (List.findIdx? (fun c => c.code == code) program).getD 0

/-! ## Pretty-printing a set of codes (source lines 450-468) -/

/-- Python's tuple comparison on the `(rank, code)` pairs built by
`pretty`. -/
def tuple_le : Nat × String → Nat × String → Prop :=
  fun a b => a.1 < b.1 ∨ (a.1 = b.1 ∧ strOrd a.2 b.2)

instance : DecidableRel tuple_le := fun a b => by
  unfold tuple_le; infer_instance

instance : IsTrans (Nat × String) tuple_le := by
  constructor
  intro a b c hab hbc
  rcases hab with h | ⟨he, hs⟩ <;> rcases hbc with h2 | ⟨he2, hs2⟩
  · exact Or.inl (by omega)
  · exact Or.inl (by omega)
  · exact Or.inl (by omega)
  · exact Or.inr ⟨by omega, codes_le_trans _ _ _ hs hs2⟩

instance : IsAntisymm (Nat × String) tuple_le := by
  constructor
  intro a b hab hba
  rcases hab with h | ⟨he, hs⟩ <;> rcases hba with h2 | ⟨he2, hs2⟩ <;>
    first
      | omega
      | exact Prod.ext (by omega) (str_le_antisymm hs hs2)

instance : IsTotal (Nat × String) tuple_le := by
  constructor
  intro a b
  rcases Nat.lt_trichotomy a.1 b.1 with h | h | h
  · exact Or.inl (Or.inl h)
  · rcases codes_le_total a.2.data b.2.data with hs | hs
    · exact Or.inl (Or.inr ⟨h, hs⟩)
    · exact Or.inr (Or.inr ⟨h.symm, hs⟩)
  · exact Or.inr (Or.inl h)

/-- The accumulation loop of `pretty` (source lines 460-465): emit each
further code with a two-space separator, or with `" ="` when its
progression entry's CPV equals `prev_cpv` (which is updated only in the
non-tie branch, and hence always equals the CPV of the previously emitted
code). -/
def pretty_emit (program : List Course) (prev_cpv : Nat) (result : String) :
    List (Nat × String) → String
  | [] => result
  | (r, c) :: rest =>
    if (program.getD r dummy_course).cpv = prev_cpv then
      pretty_emit program prev_cpv (result ++ " =" ++ c) rest
    else
      pretty_emit program (program.getD r dummy_course).cpv (result ++ "  " ++ c) rest

/-- The function `pretty(codes, program)` on an already-linearized list of codes.  The
source receives the codes as a set or list and sorts the `(rank, code)`
pairs, so with distinct codes the output does not depend on the input
order. -/
def pretty (codes : List String) (program : List Course := []) : String :=
  if codes.length = 0 then ""
  else if ¬ program.length = 0 then
    match List.insertionSort tuple_le (codes.map fun c => (get_rank c program, c)) with
    | [] => ""
    | (prev_rank, c0) :: rest =>
      pretty_emit program (program.getD prev_rank dummy_course).cpv c0 rest
  else
    String.intercalate " " codes

/-- The function `pretty` applied to a Python set of codes: the set is linearized in the
canonical (lexicographic) order, matching the source's doctests. -/
def pretty_set (codes : Finset String) (program : List Course := []) : String :=
  pretty (sortCodes codes) program

/-! ## Eligibility (source lines 480-497) -/

/-- The non-elective codes of a program, as computed inside `is_allowed`
(source line 491). -/
def required_codes (program : List Course) : Finset String :=
  ((program.filter fun c => ! c.is_elective).map Course.code).toFinset

def is_allowed (course : Course) (done : Finset String) (semester : Nat)
    (program : List Course := []) : Bool :=
  let correct_semester := cpv_int course % 2 == semester % 2
  let space :=
    if course.is_elective && ! program.isEmpty then
      let num_todo := (required_codes program \ done).card
      decide (done.card + num_todo < COURSES_NEEDED)
    else
      true
  ! decide (course.code ∈ done) && correct_semester && space

/-! ## Removing satisfied courses (source lines 572-574) -/

def remove_done (progression : List Course) (done : Finset String) : List Course :=
  progression.filter fun c => ! c.is_done done

/-! ## Elective allocation (source lines 580-585)

Python sorts `list(done)` by the key `c[3:]` and returns the first element
(or `None` when the set is empty).  The set is linearized canonically by
`sortCodes`; ties on the key are then resolved by that canonical order just
as Python's stable sort resolves them by its iteration order. -/

def elective_key_le : String → String → Prop :=
  fun a b => codes_le (a.data.drop 3) (b.data.drop 3) = true

instance : DecidableRel elective_key_le := fun a b => by
  unfold elective_key_le; infer_instance

instance : IsTrans String elective_key_le :=
  ⟨fun a b c hab hbc => codes_le_trans _ _ _ hab hbc⟩

instance : IsTotal String elective_key_le :=
  ⟨fun a b => codes_le_total _ _⟩

def allocate_elective (elective : Course) (done : Finset String) : Option String :=
  match List.insertionSort elective_key_le (sortCodes done) with
  | [] => none
  | code :: _ => some code

/-! ## Termination condition (source lines 599-601) -/

def finished (progression : List Course) (done : Finset String) : Bool :=
  decide (COURSES_NEEDED ≤ done.card) && progression.all fun c => c.is_elective

/-! ## Hard-coded BICT prerequisites (source lines 608-628) -/

def and_prereqs : List (String × List String) :=
  [("ICT221", ["ICT112"]),
   ("ICT220", ["ICT120"]),
   ("ICT311", ["ICT221"]),
   ("ICT320", ["ICT211", "ICT112"]),
   ("DES222", ["DES221"]),
   ("CSC301", ["ICT311", "DES222"]),
   ("ICT310", ["ICT112", "ICT115"]),
   ("ICT342", ["ICT311"]),
   ("ICT352", ["BUS104"]),
   ("ICT351", ["ICT221"])]

def prereqs_met (course : Course) (done : Finset String) : Bool :=
  ((and_prereqs.lookup course.code).getD []).all fun p => decide (p ∈ done)

/-! ## The semester scheduler (source lines 645-696)

`plan_student`'s writes to the output stream are modelled as returned data:
per-course diagnostics become `Msg` values and each `sem<N>:` line becomes
a `(semester, todo-codes)` pair.  `todo` is a Python set of `Course`
objects whose equality and hashing are by `code` (source lines 249-257),
so it is modelled as the `Finset` of its codes. -/

inductive Msg where
  | satisfiedBy (elective extra : String) : Msg
  | prereqsNotMet (code : String) : Msg
deriving DecidableEq

structure ScanSt where
  todo : Finset String
  done : Finset String
  done_extra : Finset String
  msgs : List Msg
deriving DecidableEq

/-- The body of the `for course in progression` loop run on one allowed
course (source lines 663-679). -/
def process_course (course : Course) (s : ScanSt) : ScanSt :=
  if course.is_elective then
    match allocate_elective course s.done_extra with
    | some e =>
      { s with done := insert course.code s.done,
               done_extra := s.done_extra.erase e,
               msgs := s.msgs ++ [.satisfiedBy course.code e] }
    | none =>
      if s.done.card < 8 * level course.code then
        { s with todo := insert course.code s.todo,
                 done := insert course.code s.done }
      else
        s
  else
    if prereqs_met course s.done then
      { s with todo := insert course.code s.todo,
               done := insert course.code s.done }
    else
      { s with msgs := s.msgs ++ [.prereqsNotMet course.code] }

/-- The `for course in progression` loop of one semester (source lines
661-683), including the early `break` when the semester is full or the
courses not yet placed in `todo` would already satisfy `finished`. -/
def scan (program : List Course) (semester : Nat) (courses : List Course)
    (s : ScanSt) : ScanSt :=
  match courses with
  | [] => s
  | course :: rest =>
    if is_allowed course s.done semester program then
      let s' := process_course course s
      let left := program.filter fun c => ! decide (c.code ∈ s'.todo)
      if s'.todo.card = LOAD ∨ finished left s'.done = true then s'
      else scan program semester rest s'
    else
      scan program semester rest s

structure PlanLoopRes where
  done : Finset String
  done_extra : Finset String
  sems : List (Nat × Finset String)
  msgs : List Msg
deriving DecidableEq

/-- The `while not finished(...) and timeout < MAX_SEMESTERS` loop of
`plan_student` (source lines 658-692).  Each iteration scans the remaining
progression, emits the semester's `todo` codes, removes them from the
progression, increments `timeout` and flips the semester parity. -/
def plan_loop (progression : List Course) (done done_extra : Finset String)
    (semester timeout : Nat) : PlanLoopRes :=
  if finished progression done = true ∨ MAX_SEMESTERS ≤ timeout then
    ⟨done, done_extra, [], []⟩
  else
    let s := scan progression semester progression ⟨∅, done, done_extra, []⟩
    let progression1 := progression.filter fun c => ! decide (c.code ∈ s.todo)
    let r := plan_loop progression1 s.done s.done_extra
      (if semester = 1 then 2 else 1) (timeout + 1)
    ⟨r.done, r.done_extra, (semester, s.todo) :: r.sems, s.msgs ++ r.msgs⟩
termination_by MAX_SEMESTERS - timeout
decreasing_by
  rename_i h
  rw [not_or] at h
  omega

/-- The result of planning one student.  `stuPassed` and
`callerProgression` are the objects the caller passed in, as they stand
after the call: the source only ever calls the non-mutating
`set.intersection`/`set.difference` on `stu.passed` and rebinds its local
`progression` variable to freshly built lists, so the translation never
updates them. -/
structure PlanResult where
  stuPassed : Finset String
  callerProgression : List Course
  done0 : Finset String
  done_extra0 : Finset String
  loop : PlanLoopRes
deriving DecidableEq

/-- The function `plan_student` (source lines 645-696): tick off the required courses
already done, then run the semester loop starting at `timeout = 0`. -/
def plan_student (passed : Finset String) (progression : List Course)
    (semester : Nat) : PlanResult :=
  let required := (progression.map Course.code).toFinset
  let done := passed ∩ required
  let done_extra := passed \ done
  let progression1 := remove_done progression done
  { stuPassed := passed
    callerProgression := progression
    done0 := done
    done_extra0 := done_extra
    loop := plan_loop progression1 done done_extra semester 0 }

/-! ## Helper lemmas -/

theorem codes_le_refl : ∀ a : List Char, codes_le a a = true := by
  intro a
  induction a with
  | nil => rfl
  | cons c cs ih => simp [codes_le, ih]

/-- The elective codes that got marked done by substitution, read off the
diagnostic messages. -/
def subs_codes (msgs : List Msg) : List String :=
  msgs.filterMap fun m =>
    match m with
    | .satisfiedBy elective _ => some elective
    | _ => none

/-! ## Claim theorems -/

/-- C9: `plan_student(stu, progression, semester, output)` leaves its inputs
unchanged apart from writing to the output sink: `stu.passed` and the
caller's progression list are the same after the call.  In the translation
every Python statement that touches them (`set.intersection`,
`set.difference`, list comprehensions) builds a fresh object, so the
caller-visible fields of the result are the unmodified inputs. -/
theorem claim_C9_inputs_unchanged
    (passed : Finset String) (progression : List Course) (semester : Nat) :
    (plan_student passed progression semester).stuPassed = passed ∧
    (plan_student passed progression semester).callerProgression = progression :=
  ⟨rfl, rfl⟩

/-- C2: `is_allowed(course, done, semester, program)` is true iff the course
is not already done, the CPV integer part matches the semester parity, and
(only when the course is elective and a non-empty program is supplied) the
elective budget `|done| + |required_codes \ done| < COURSES_NEEDED` holds;
moreover with empty `done` and no program, a CPV `1.x`/`3.x` course is
allowed exactly in semester 1 and a CPV `2.x`/`4.x` course exactly in
semester 2. -/
theorem claim_C2_is_allowed :
    (∀ (course : Course) (done : Finset String) (semester : Nat) (program : List Course),
      is_allowed course done semester program = true ↔
        course.code ∉ done ∧ cpv_int course % 2 = semester % 2 ∧
          (course.is_elective = true → program ≠ [] →
            done.card + (required_codes program \ done).card < COURSES_NEEDED))
    ∧ (∀ course : Course, cpv_int course = 1 ∨ cpv_int course = 3 →
        is_allowed course ∅ 1 = true ∧ is_allowed course ∅ 2 = false)
    ∧ (∀ course : Course, cpv_int course = 2 ∨ cpv_int course = 4 →
        is_allowed course ∅ 2 = true ∧ is_allowed course ∅ 1 = false) := by
  refine ⟨?_, ?_, ?_⟩
  · intro course done semester program
    simp only [is_allowed, Bool.and_eq_true, Bool.not_eq_eq_eq_not, Bool.not_true,
      decide_eq_false_iff_not, beq_iff_eq]
    by_cases he : course.is_elective = true
    · by_cases hp : program = []
      · subst hp
        simp [he]
        try tauto
      · rw [if_pos (by simp [he, List.isEmpty_iff, hp])]
        simp [he, hp]
        try tauto
    · rw [if_neg (by simp [Bool.not_eq_true] at he; simp [he])]
      simp [he]
      try tauto
  · rintro course (h | h) <;>
      simp [is_allowed, h, Finset.not_mem_empty]
  · rintro course (h | h) <;>
      simp [is_allowed, h, Finset.not_mem_empty]

theorem claim_C2_is_allowed_witness :
    is_allowed ⟨"ABC110", "News Science", 1230⟩ ∅ 1 = true ∧
    is_allowed ⟨"ABC110", "News Science", 1230⟩ ∅ 2 = false :=
  claim_C2_is_allowed.2.1 ⟨"ABC110", "News Science", 1230⟩ (Or.inl (by decide))

/-- C4: the claim says a child of any other type "counts as unsatisfied
(with a diagnostic, not a failure)", but the source's diagnostic (line
195) concatenates the warning string with the non-str child, raising
`TypeError`: evaluating any rule that contains an unknown child fails
(`none`) instead of continuing -- so the code contradicts the claim (a
code bug: the message text "ignored" and the `str(...)`-wrapped warning
at line 91 show warn-and-continue was the intent).  On rules whose
children are all codes or nested rules, the claimed semantics hold: the
rule is satisfied iff at least `num_required` children are satisfied,
`num = 0` sets the threshold to the child count, and the 3-of-7 rule is
false with exactly 2 satisfied children and true with exactly 3. -/
theorem claim_C4_prereq :
    (PreReq.make [.unknown] 1).is_satisfied ∅ = none
    ∧ (∀ (checks : List PreReqEntry) (num : Nat) (done : Finset String),
        PreReqEntry.unknown ∈ checks →
          (PreReq.make checks num).is_satisfied done = none)
    ∧ (∀ (checks : List PreReqEntry) (num : Nat) (done : Finset String) (n : Nat),
        countSat checks done = some n →
          (PreReq.make checks num).is_satisfied done =
            some (decide ((if 0 < num then num else checks.length) ≤ n)))
    ∧ (∀ (s : String) (done : Finset String),
        entrySat (.code s) done = some (decide (s ∈ done)))
    ∧ (∀ (p : PreReq) (done : Finset String), entrySat (.sub p) done = p.is_satisfied done)
    ∧ (∀ done : Finset String, entrySat .unknown done = none)
    ∧ (∀ checks : List PreReqEntry, PreReq.make checks = .node checks checks.length)
    ∧ (PreReq.make [.code "ICT301", .code "ICT310", .code "ICT311", .code "ICT320",
        .code "ICT321", .code "ICT351", .code "ICT352"] 3).is_satisfied
        {"ICT301", "ICT321"} = some false
    ∧ (PreReq.make [.code "ICT301", .code "ICT310", .code "ICT311", .code "ICT320",
        .code "ICT321", .code "ICT351", .code "ICT352"] 3).is_satisfied
        {"ICT301", "ICT321", "ICT351"} = some true := by
  have hcount : ∀ (checks : List PreReqEntry) (done : Finset String),
      PreReqEntry.unknown ∈ checks → countSat checks done = none := by
    intro checks done hmem
    induction checks with
    | nil => cases hmem
    | cons chk rest ih =>
      rcases List.mem_cons.mp hmem with rfl | hmem2
      · rfl
      · show (match entrySat chk done with
          | some b =>
            match countSat rest done with
            | some n => some ((if b then 1 else 0) + n)
            | none => none
          | none => none) = none
        rcases entrySat chk done with _ | b
        · rfl
        · rw [ih hmem2]
  refine ⟨rfl, ?_, ?_, ?_, ?_, ?_, ?_, by decide, by decide⟩
  · intro checks num done hmem
    show (match countSat checks done with
      | some num2 => some (decide ((if 0 < num then num else checks.length) ≤ num2))
      | none => none) = none
    rw [hcount checks done hmem]
  · intro checks num done n hn
    show (match countSat checks done with
      | some num2 => some (decide ((if 0 < num then num else checks.length) ≤ num2))
      | none => none) = _
    rw [hn]
  · intro s done
    rfl
  · intro p done
    rfl
  · intro done
    rfl
  · intro checks
    simp [PreReq.make]

theorem claim_C4_prereq_witness :
    (PreReq.make [.code "ICT110", .unknown] 1).is_satisfied {"ICT110"} = none ∧
    (PreReq.make [.code "ICT110"] 1).is_satisfied {"ICT110"} =
      some (decide ((if 0 < 1 then 1 else 1) ≤ 1)) :=
  ⟨claim_C4_prereq.2.1 [.code "ICT110", .unknown] 1 {"ICT110"}
      (List.mem_cons_of_mem _ (List.mem_cons_self _ _)),
    claim_C4_prereq.2.2.1 [.code "ICT110"] 1 {"ICT110"} 1 (by decide)⟩

/-- C6: `allocate_elective` returns `None` on an empty set, and otherwise a
member of `done_extra` whose code substring from index 3 on is minimal in
the ascending (lexicographic) order; from `{"ABC123", "ABC234"}` it returns
`"ABC123"`. -/
theorem claim_C6_allocate_elective :
    (∀ e : Course, allocate_elective e ∅ = none)
    ∧ (∀ (e : Course) (dex : Finset String), dex.Nonempty →
        ∃ c, allocate_elective e dex = some c ∧ c ∈ dex ∧
          ∀ d ∈ dex, codes_le (c.data.drop 3) (d.data.drop 3) = true)
    ∧ (∀ e : Course, allocate_elective e {"ABC123", "ABC234"} = some "ABC123") := by
  refine ⟨?_, ?_, ?_⟩
  · intro e
    rfl
  · intro e dex hne
    obtain ⟨x, hx⟩ := hne
    have hxl : x ∈ List.insertionSort elective_key_le (sortCodes dex) := by
      rw [List.mem_insertionSort]
      exact mem_sortCodes.mpr hx
    rcases hsort : List.insertionSort elective_key_le (sortCodes dex) with _ | ⟨c, t⟩
    · rw [hsort] at hxl
      cases hxl
    · refine ⟨c, ?_, ?_, ?_⟩
      · unfold allocate_elective
        rw [hsort]
      · have : c ∈ List.insertionSort elective_key_le (sortCodes dex) := by
          rw [hsort]; exact List.mem_cons_self c t
        rw [List.mem_insertionSort] at this
        exact mem_sortCodes.mp this
      · intro d hd
        have hd2 : d ∈ c :: t := by
          rw [← hsort, List.mem_insertionSort]
          exact mem_sortCodes.mpr hd
        rcases List.mem_cons.mp hd2 with rfl | hdt
        · exact codes_le_refl _
        · have hp : List.Pairwise elective_key_le (c :: t) := by
            rw [← hsort]
            exact List.sorted_insertionSort elective_key_le (sortCodes dex)
          exact (List.pairwise_cons.mp hp).1 d hdt
  · intro e
    rfl

theorem claim_C6_allocate_elective_witness :
    ∃ c, allocate_elective ⟨"Elective200", "", 2341⟩ {"ABC123", "ABC234"} = some c ∧
      c ∈ ({"ABC123", "ABC234"} : Finset String) ∧
      ∀ d ∈ ({"ABC123", "ABC234"} : Finset String),
        codes_le (c.data.drop 3) (d.data.drop 3) = true :=
  claim_C6_allocate_elective.2.1 ⟨"Elective200", "", 2341⟩ {"ABC123", "ABC234"}
    ⟨"ABC123", by decide⟩

/-- C8: `pretty` of the empty set is the empty string; with no progression
supplied the codes are joined by single spaces in ascending (alphabetical)
order — the canonical linearization of the set — so `{"ABC323", "ABC100"}`
prints as `"ABC100 ABC323"`. -/
theorem claim_C8_pretty_no_program :
    pretty_set ∅ = ""
    ∧ pretty_set {"ABC323", "ABC100"} = "ABC100 ABC323"
    ∧ (∀ codes : Finset String, codes.Nonempty →
        pretty_set codes = String.intercalate " " (sortCodes codes)
          ∧ List.Sorted strOrd (sortCodes codes)
          ∧ ∀ c, c ∈ sortCodes codes ↔ c ∈ codes) := by
  refine ⟨by decide, by decide, ?_⟩
  intro codes hne
  obtain ⟨x, hx⟩ := hne
  have hmem : x ∈ sortCodes codes := mem_sortCodes.mpr hx
  have hlen : ¬ (sortCodes codes).length = 0 := by
    intro h
    rw [List.length_eq_zero] at h
    rw [h] at hmem
    cases hmem
  refine ⟨?_, sortCodes_sorted codes, fun c => mem_sortCodes⟩
  unfold pretty_set pretty
  rw [if_neg hlen, if_neg (by simp)]

theorem claim_C8_pretty_no_program_witness :
    pretty_set {"ABC323", "ABC100"} = String.intercalate " " (sortCodes {"ABC323", "ABC100"})
      ∧ List.Sorted strOrd (sortCodes {"ABC323", "ABC100"})
      ∧ ∀ c, c ∈ sortCodes ({"ABC323", "ABC100"} : Finset String) ↔
          c ∈ ({"ABC323", "ABC100"} : Finset String) :=
  claim_C8_pretty_no_program.2.2 {"ABC323", "ABC100"} ⟨"ABC100", by decide⟩

theorem findIdx_code_spec :
    ∀ (program : List Course) (code : String) (k : Nat),
      List.findIdx? (fun c => c.code == code) program = some k →
        k < program.length ∧ (program.getD k dummy_course).code = code ∧
        ∀ j < k, (program.getD j dummy_course).code ≠ code := by
  intro program
  induction program with
  | nil =>
    intro code k h
    simp at h
  | cons c rest ih =>
    intro code k h
    rw [List.findIdx?_cons] at h
    by_cases hc : c.code == code
    · rw [if_pos hc] at h
      cases h
      refine ⟨Nat.succ_pos _, by simpa using hc, ?_⟩
      intro j hj
      omega
    · rw [if_neg hc, List.findIdx?_succ] at h
      rcases Option.map_eq_some'.mp h with ⟨k0, hk0, rfl⟩
      obtain ⟨hlt, hget, hmin⟩ := ih code k0 hk0
      refine ⟨by simpa using hlt, by simpa using hget, ?_⟩
      intro j hj
      cases j with
      | zero =>
        simpa using fun h2 => hc (by simpa using h2)
      | succ j0 =>
        simpa using hmin j0 (by omega)

/-- C10: `get_rank(code, program)` returns the smallest index whose course
has the given code when the code occurs in the program, and `0` when it
occurs nowhere; consequently `pretty` ranks an absent code at position 0,
tied with the first course (compared against `program[0]`'s CPV). -/
theorem claim_C10_get_rank :
    (∀ (code : String) (program : List Course),
      (∃ c ∈ program, c.code = code) →
        get_rank code program < program.length ∧
        (program.getD (get_rank code program) dummy_course).code = code ∧
        ∀ j < get_rank code program, (program.getD j dummy_course).code ≠ code)
    ∧ (∀ (code : String) (program : List Course),
        (∀ c ∈ program, c.code ≠ code) → get_rank code program = 0)
    ∧ pretty_set {"COR109", "ZZZ999"}
        [⟨"COR109", "Communication and Thought", 1101⟩, ⟨"SCI113", "", 1130⟩,
         ⟨"LFS100", "", 1130⟩] = "COR109 =ZZZ999" := by
  refine ⟨?_, ?_, by decide⟩
  · intro code program hex
    have hsome : (List.findIdx? (fun c => c.code == code) program).isSome = true := by
      rw [List.findIdx?_isSome, List.any_eq_true]
      obtain ⟨c, hc, he⟩ := hex
      exact ⟨c, hc, by simpa using he⟩
    rcases hk : List.findIdx? (fun c => c.code == code) program with _ | k
    · rw [hk] at hsome
      cases hsome
    · have := findIdx_code_spec program code k hk
      unfold get_rank
      rw [hk]
      exact this
  · intro code program hnone
    unfold get_rank
    have : List.findIdx? (fun c => c.code == code) program = none := by
      rw [List.findIdx?_eq_none_iff]
      intro c hc
      simpa using hnone c hc
    rw [this]
    rfl

theorem claim_C10_get_rank_witness :
    get_rank "SCI113" [⟨"COR109", "t", 1101⟩, ⟨"SCI113", "", 1130⟩] <
      [⟨"COR109", "t", 1101⟩, (⟨"SCI113", "", 1130⟩ : Course)].length ∧
    (([⟨"COR109", "t", 1101⟩, ⟨"SCI113", "", 1130⟩] : List Course).getD
      (get_rank "SCI113" [⟨"COR109", "t", 1101⟩, ⟨"SCI113", "", 1130⟩])
      dummy_course).code = "SCI113" ∧
    ∀ j < get_rank "SCI113" [⟨"COR109", "t", 1101⟩, ⟨"SCI113", "", 1130⟩],
      (([⟨"COR109", "t", 1101⟩, ⟨"SCI113", "", 1130⟩] : List Course).getD j
        dummy_course).code ≠ "SCI113" :=
  claim_C10_get_rank.1 "SCI113" [⟨"COR109", "t", 1101⟩, ⟨"SCI113", "", 1130⟩]
    ⟨⟨"SCI113", "", 1130⟩, by decide, rfl⟩

/-- C3: in a semester iteration, an allowed elective course is handled by
`process_course`: if `allocate_elective` yields a code `e` then the
elective's code is added to `done`, `e` is removed from `done_extra`, and
the elective is not added to the semester's `todo` set; otherwise it is
added to both `todo` and `done` exactly when `|done| < 8 * level(code)`. -/
theorem claim_C3_elective_step (course : Course) (s : ScanSt)
    (helec : course.is_elective = true) :
    (∀ e, allocate_elective course s.done_extra = some e →
      process_course course s =
        { s with done := insert course.code s.done,
                 done_extra := s.done_extra.erase e,
                 msgs := s.msgs ++ [.satisfiedBy course.code e] })
    ∧ (allocate_elective course s.done_extra = none →
        (s.done.card < 8 * level course.code →
          process_course course s =
            { s with todo := insert course.code s.todo,
                     done := insert course.code s.done })
        ∧ (¬ s.done.card < 8 * level course.code → process_course course s = s)) := by
  constructor
  · intro e he
    unfold process_course
    rw [helec, if_pos rfl, he]
  · intro hnone
    constructor
    · intro hcard
      unfold process_course
      rw [helec, if_pos rfl, hnone, if_pos hcard]
    · intro hcard
      unfold process_course
      rw [helec, if_pos rfl, hnone, if_neg hcard]

theorem claim_C3_elective_step_witness :
    process_course ⟨"Elective200", "", 2341⟩ ⟨∅, ∅, {"ABC123"}, []⟩ =
      { (⟨∅, ∅, {"ABC123"}, []⟩ : ScanSt) with
          done := insert "Elective200" ∅,
          done_extra := ({"ABC123"} : Finset String).erase "ABC123",
          msgs := [] ++ [.satisfiedBy "Elective200" "ABC123"] } :=
  (claim_C3_elective_step ⟨"Elective200", "", 2341⟩ ⟨∅, ∅, {"ABC123"}, []⟩
    (by decide)).1 "ABC123" (by decide)

theorem plan_loop_exit (p : List Course) (d dx : Finset String) (sem t : Nat)
    (h : finished p d = true ∨ MAX_SEMESTERS ≤ t) :
    plan_loop p d dx sem t = ⟨d, dx, [], []⟩ := by
  rw [plan_loop, if_pos h]

theorem plan_loop_step (p : List Course) (d dx : Finset String) (sem t : Nat)
    (h : ¬ (finished p d = true ∨ MAX_SEMESTERS ≤ t)) :
    plan_loop p d dx sem t =
      ⟨(plan_loop ((p.filter fun c => ! decide (c.code ∈ (scan p sem p ⟨∅, d, dx, []⟩).todo)))
          (scan p sem p ⟨∅, d, dx, []⟩).done (scan p sem p ⟨∅, d, dx, []⟩).done_extra
          (if sem = 1 then 2 else 1) (t + 1)).done,
        (plan_loop ((p.filter fun c => ! decide (c.code ∈ (scan p sem p ⟨∅, d, dx, []⟩).todo)))
          (scan p sem p ⟨∅, d, dx, []⟩).done (scan p sem p ⟨∅, d, dx, []⟩).done_extra
          (if sem = 1 then 2 else 1) (t + 1)).done_extra,
        (sem, (scan p sem p ⟨∅, d, dx, []⟩).todo) ::
          (plan_loop ((p.filter fun c => ! decide (c.code ∈ (scan p sem p ⟨∅, d, dx, []⟩).todo)))
            (scan p sem p ⟨∅, d, dx, []⟩).done (scan p sem p ⟨∅, d, dx, []⟩).done_extra
            (if sem = 1 then 2 else 1) (t + 1)).sems,
        (scan p sem p ⟨∅, d, dx, []⟩).msgs ++
          (plan_loop ((p.filter fun c => ! decide (c.code ∈ (scan p sem p ⟨∅, d, dx, []⟩).todo)))
            (scan p sem p ⟨∅, d, dx, []⟩).done (scan p sem p ⟨∅, d, dx, []⟩).done_extra
            (if sem = 1 then 2 else 1) (t + 1)).msgs⟩ := by
  rw [plan_loop, if_neg h]

theorem plan_loop_sems_length :
    ∀ (n : Nat) (p : List Course) (d dx : Finset String) (sem t : Nat),
      MAX_SEMESTERS - t ≤ n → (plan_loop p d dx sem t).sems.length ≤ n := by
  intro n
  induction n with
  | zero =>
    intro p d dx sem t h
    rw [plan_loop_exit p d dx sem t (Or.inr (by omega))]
    simp
  | succ n ih =>
    intro p d dx sem t h
    by_cases hg : finished p d = true ∨ MAX_SEMESTERS ≤ t
    · rw [plan_loop_exit p d dx sem t hg]
      simp
    · rw [plan_loop_step p d dx sem t hg]
      simp only [List.length_cons]
      have hn : MAX_SEMESTERS - (t + 1) ≤ n := by
        rw [not_or] at hg
        omega
      exact Nat.succ_le_succ (ih _ _ _ _ _ hn)

/-- C1: the semester loop of `plan_student` halts: it exits immediately
(performing no semester iteration) as soon as `finished(progression, done)`
holds, and in any case emits at most `MAX_SEMESTERS - timeout` semester
lines (each iteration increments `timeout` by one), so a run started at
`timeout = 0` performs at most `MAX_SEMESTERS = 10` iterations. -/
theorem claim_C1_termination :
    (∀ (progression : List Course) (done done_extra : Finset String) (semester timeout : Nat),
      finished progression done = true →
        plan_loop progression done done_extra semester timeout =
          ⟨done, done_extra, [], []⟩)
    ∧ (∀ (progression : List Course) (done done_extra : Finset String) (semester timeout : Nat),
        (plan_loop progression done done_extra semester timeout).sems.length ≤
          MAX_SEMESTERS - timeout)
    ∧ (∀ (passed : Finset String) (progression : List Course) (semester : Nat),
        (plan_student passed progression semester).loop.sems.length ≤ MAX_SEMESTERS) := by
  refine ⟨?_, ?_, ?_⟩
  · intro p d dx sem t h
    exact plan_loop_exit p d dx sem t (Or.inl h)
  · intro p d dx sem t
    exact plan_loop_sems_length (MAX_SEMESTERS - t) p d dx sem t (Nat.le_refl _)
  · intro passed p sem
    exact plan_loop_sems_length MAX_SEMESTERS _ _ _ sem 0 (Nat.le_refl _)

theorem claim_C1_termination_witness :
    plan_loop [] {"C01", "C02", "C03", "C04", "C05", "C06", "C07", "C08", "C09", "C10",
      "C11", "C12", "C13", "C14", "C15", "C16", "C17", "C18", "C19", "C20",
      "C21", "C22", "C23", "C24"} ∅ 1 0 =
      ⟨{"C01", "C02", "C03", "C04", "C05", "C06", "C07", "C08", "C09", "C10",
        "C11", "C12", "C13", "C14", "C15", "C16", "C17", "C18", "C19", "C20",
        "C21", "C22", "C23", "C24"}, ∅, [], []⟩ :=
  claim_C1_termination.1 []
    {"C01", "C02", "C03", "C04", "C05", "C06", "C07", "C08", "C09", "C10",
     "C11", "C12", "C13", "C14", "C15", "C16", "C17", "C18", "C19", "C20",
     "C21", "C22", "C23", "C24"} ∅ 1 0 (by decide)

theorem subs_codes_append (a b : List Msg) :
    subs_codes (a ++ b) = subs_codes a ++ subs_codes b := by
  unfold subs_codes
  rw [List.filterMap_append]

theorem is_allowed_done_false (course : Course) (done : Finset String) (semester : Nat)
    (program : List Course) (h : course.code ∈ done) :
    is_allowed course done semester program = false := by
  simp [is_allowed, h]

theorem not_done_of_is_allowed {course : Course} {done : Finset String} {semester : Nat}
    {program : List Course} (h : is_allowed course done semester program = true) :
    course.code ∉ done := by
  intro hx
  rw [is_allowed_done_false course done semester program hx] at h
  cases h

theorem process_course_inv (course : Course) (s : ScanSt) :
    s.done ⊆ (process_course course s).done ∧
    s.todo ⊆ (process_course course s).todo ∧
    (∃ tail, (process_course course s).msgs = s.msgs ++ tail) ∧
    (∀ x ∈ (process_course course s).done,
      x ∈ s.done ∨ x ∈ (process_course course s).todo ∨
        x ∈ subs_codes ((process_course course s).msgs)) ∧
    (∀ x ∈ (process_course course s).todo, x ∈ s.todo ∨ x = course.code) := by
  unfold process_course
  split
  · split
    · rename_i e _
      refine ⟨Finset.subset_insert _ _, Finset.Subset.refl _, ⟨_, rfl⟩, ?_, ?_⟩
      · intro x hx
        rcases Finset.mem_insert.mp hx with rfl | hx
        · refine Or.inr (Or.inr ?_)
          rw [subs_codes_append]
          simp [subs_codes]
        · exact Or.inl hx
      · intro x hx
        exact Or.inl hx
    · split
      · refine ⟨Finset.subset_insert _ _, Finset.subset_insert _ _, ⟨[], by simp⟩, ?_, ?_⟩
        · intro x hx
          rcases Finset.mem_insert.mp hx with rfl | hx
          · exact Or.inr (Or.inl (Finset.mem_insert_self _ _))
          · exact Or.inl hx
        · intro x hx
          rcases Finset.mem_insert.mp hx with rfl | hx
          · exact Or.inr rfl
          · exact Or.inl hx
      · exact ⟨Finset.Subset.refl _, Finset.Subset.refl _, ⟨[], by simp⟩,
          fun x hx => Or.inl hx, fun x hx => Or.inl hx⟩
  · split
    · refine ⟨Finset.subset_insert _ _, Finset.subset_insert _ _, ⟨[], by simp⟩, ?_, ?_⟩
      · intro x hx
        rcases Finset.mem_insert.mp hx with rfl | hx
        · exact Or.inr (Or.inl (Finset.mem_insert_self _ _))
        · exact Or.inl hx
      · intro x hx
        rcases Finset.mem_insert.mp hx with rfl | hx
        · exact Or.inr rfl
        · exact Or.inl hx
    · refine ⟨Finset.Subset.refl _, Finset.Subset.refl _, ⟨_, rfl⟩,
        fun x hx => Or.inl hx, fun x hx => Or.inl hx⟩

theorem scan_inv (program : List Course) (semester : Nat) :
    ∀ (courses : List Course) (s : ScanSt),
      s.done ⊆ (scan program semester courses s).done ∧
      s.todo ⊆ (scan program semester courses s).todo ∧
      (∃ tail, (scan program semester courses s).msgs = s.msgs ++ tail) ∧
      (∀ x ∈ (scan program semester courses s).done,
        x ∈ s.done ∨ x ∈ (scan program semester courses s).todo ∨
          x ∈ subs_codes ((scan program semester courses s).msgs)) ∧
      (∀ x ∈ (scan program semester courses s).todo, x ∈ s.todo ∨ x ∉ s.done) := by
  intro courses
  induction courses with
  | nil =>
    intro s
    exact ⟨Finset.Subset.refl _, Finset.Subset.refl _, ⟨[], by simp [scan]⟩,
      fun x hx => Or.inl hx, fun x hx => Or.inl hx⟩
  | cons course rest ih =>
    intro s
    by_cases ha : is_allowed course s.done semester program = true
    · obtain ⟨pd, pt, ⟨t1, ht1⟩, pds, pts⟩ := process_course_inv course s
      have hnotdone : course.code ∉ s.done := not_done_of_is_allowed ha
      by_cases hbreak :
          (process_course course s).todo.card = LOAD ∨
            finished (program.filter fun c =>
              ! decide (c.code ∈ (process_course course s).todo)) (process_course course s).done
              = true
      · have hres : scan program semester (course :: rest) s = process_course course s := by
          rw [scan, if_pos ha, if_pos hbreak]
        rw [hres]
        refine ⟨pd, pt, ⟨t1, ht1⟩, pds, ?_⟩
        intro x hx
        rcases pts x hx with hx2 | rfl
        · exact Or.inl hx2
        · exact Or.inr hnotdone
      · have hres : scan program semester (course :: rest) s =
            scan program semester rest (process_course course s) := by
          rw [scan, if_pos ha, if_neg hbreak]
        rw [hres]
        obtain ⟨rd, rt, ⟨t2, ht2⟩, rds, rts⟩ := ih (process_course course s)
        refine ⟨pd.trans rd, pt.trans rt, ⟨t1 ++ t2, by rw [ht2, ht1, List.append_assoc]⟩,
          ?_, ?_⟩
        · intro x hx
          rcases rds x hx with hx2 | hx2 | hx2
          · rcases pds x hx2 with hx3 | hx3 | hx3
            · exact Or.inl hx3
            · exact Or.inr (Or.inl (rt hx3))
            · refine Or.inr (Or.inr ?_)
              rw [ht2, subs_codes_append]
              exact List.mem_append_left _ hx3
          · exact Or.inr (Or.inl hx2)
          · exact Or.inr (Or.inr hx2)
        · intro x hx
          rcases rts x hx with hx2 | hx2
          · rcases pts x hx2 with hx3 | rfl
            · exact Or.inl hx3
            · exact Or.inr hnotdone
          · exact Or.inr fun hx3 => hx2 (pd hx3)
    · have hres : scan program semester (course :: rest) s = scan program semester rest s := by
        rw [scan, if_neg ha]
      rw [hres]
      exact ih s

theorem plan_loop_inv :
    ∀ (n : Nat) (p : List Course) (d dx : Finset String) (sem t : Nat),
      MAX_SEMESTERS - t ≤ n →
        (∀ x ∈ d, ∀ st ∈ (plan_loop p d dx sem t).sems, x ∉ st.2) ∧
        (∀ x ∈ (plan_loop p d dx sem t).done,
          x ∈ d ∨ (∃ st ∈ (plan_loop p d dx sem t).sems, x ∈ st.2) ∨
            x ∈ subs_codes ((plan_loop p d dx sem t).msgs)) := by
  intro n
  induction n with
  | zero =>
    intro p d dx sem t h
    rw [plan_loop_exit p d dx sem t (Or.inr (by omega))]
    exact ⟨fun x hx st hst => absurd hst (List.not_mem_nil st), fun x hx => Or.inl hx⟩
  | succ n ih =>
    intro p d dx sem t h
    by_cases hg : finished p d = true ∨ MAX_SEMESTERS ≤ t
    · rw [plan_loop_exit p d dx sem t hg]
      exact ⟨fun x hx st hst => absurd hst (List.not_mem_nil st), fun x hx => Or.inl hx⟩
    · rw [plan_loop_step p d dx sem t hg]
      obtain ⟨sd, st0, ⟨tl, htl⟩, sds, sts⟩ := scan_inv p sem p ⟨∅, d, dx, []⟩
      have hn : MAX_SEMESTERS - (t + 1) ≤ n := by
        rw [not_or] at hg
        omega
      obtain ⟨iha, ihb⟩ := ih
        (p.filter fun c => ! decide (c.code ∈ (scan p sem p ⟨∅, d, dx, []⟩).todo))
        (scan p sem p ⟨∅, d, dx, []⟩).done (scan p sem p ⟨∅, d, dx, []⟩).done_extra
        (if sem = 1 then 2 else 1) (t + 1) hn
      constructor
      · intro x hx stp hstp
        rcases List.mem_cons.mp hstp with rfl | hstp2
        · intro hxt
          rcases sts x hxt with hx2 | hx2
          · cases hx2
          · exact hx2 hx
        · exact iha x (sd hx) stp hstp2
      · intro x hx
        rcases ihb x hx with hx2 | ⟨stp, hstp, hxstp⟩ | hx2
        · rcases sds x hx2 with hx3 | hx3 | hx3
          · exact Or.inl hx3
          · exact Or.inr (Or.inl ⟨(sem, (scan p sem p ⟨∅, d, dx, []⟩).todo),
              List.mem_cons_self _ _, hx3⟩)
          · refine Or.inr (Or.inr ?_)
            rw [subs_codes_append]
            exact List.mem_append_left _ hx3
        · exact Or.inr (Or.inl ⟨stp, List.mem_cons_of_mem _ hstp, hxstp⟩)
        · refine Or.inr (Or.inr ?_)
          rw [subs_codes_append]
          exact List.mem_append_right _ hx2

/-- C7: `is_allowed` rejects any course whose code is already in `done`, so
a code placed in `done` is never added to a later semester's `todo` set;
and the working `done` set stays inside the originally completed codes plus
the codes newly placed by the planner (a semester `todo` entry or an
elective marked done by substitution). -/
theorem claim_C7_done_invariant :
    (∀ (course : Course) (done : Finset String) (semester : Nat) (program : List Course),
      course.code ∈ done → is_allowed course done semester program = false)
    ∧ (∀ (p : List Course) (d dx : Finset String) (sem t : Nat),
        ∀ x ∈ d, ∀ st ∈ (plan_loop p d dx sem t).sems, x ∉ st.2)
    ∧ (∀ (p : List Course) (d dx : Finset String) (sem t : Nat),
        ∀ x ∈ (plan_loop p d dx sem t).done,
          x ∈ d ∨ (∃ st ∈ (plan_loop p d dx sem t).sems, x ∈ st.2) ∨
            x ∈ subs_codes ((plan_loop p d dx sem t).msgs))
    ∧ (∀ (passed : Finset String) (progression : List Course) (semester : Nat),
        ∀ x ∈ (plan_student passed progression semester).loop.done,
          x ∈ passed ∨
            (∃ st ∈ (plan_student passed progression semester).loop.sems, x ∈ st.2) ∨
            x ∈ subs_codes ((plan_student passed progression semester).loop.msgs)) := by
  refine ⟨?_, ?_, ?_, ?_⟩
  · exact is_allowed_done_false
  · intro p d dx sem t
    exact (plan_loop_inv (MAX_SEMESTERS - t) p d dx sem t (Nat.le_refl _)).1
  · intro p d dx sem t
    exact (plan_loop_inv (MAX_SEMESTERS - t) p d dx sem t (Nat.le_refl _)).2
  · intro passed p sem x hx
    rcases (plan_loop_inv MAX_SEMESTERS _ _ _ sem 0 (Nat.le_refl _)).2 x hx with
      hx2 | hx2 | hx2
    · exact Or.inl (Finset.mem_of_mem_inter_left hx2)
    · exact Or.inr (Or.inl hx2)
    · exact Or.inr (Or.inr hx2)

theorem claim_C7_done_invariant_witness :
    is_allowed ⟨"ABC110", "News Science", 1230⟩ {"ABC110"} 1 [] = false :=
  claim_C7_done_invariant.1 ⟨"ABC110", "News Science", 1230⟩ {"ABC110"} 1 []
    (by decide)

/-- The sorted `(rank, code)` list built by `pretty` (source lines
455-457). -/
def pretty_ranked (codes : Finset String) (program : List Course) : List (Nat × String) :=
  List.insertionSort tuple_le ((sortCodes codes).map fun c => (get_rank c program, c))

/-- C5: with a non-empty code set and progression, `pretty` emits the codes
in ascending rank order (rank = first index of occurrence in the
progression, ties broken by the code), joining with two spaces except that
a code whose progression entry's CPV equals the previously emitted code's
CPV is joined by a single space and `=`; on a progression starting with
COR109 (cpv 1.101), SCI113 (cpv 1.130), LFS100 (cpv 1.130) the set
{LFS100, COR109, SCI113} prints as "COR109  SCI113 =LFS100". -/
theorem claim_C5_pretty :
    (∀ (codes : Finset String) (program : List Course),
      codes.Nonempty → program ≠ [] →
        List.Pairwise tuple_le (pretty_ranked codes program)
        ∧ ((pretty_ranked codes program).map Prod.fst).Pairwise (· ≤ ·)
        ∧ ((pretty_ranked codes program).map Prod.snd).Perm (sortCodes codes)
        ∧ (∀ pr ∈ pretty_ranked codes program, pr.1 = get_rank pr.2 program)
        ∧ pretty_set codes program =
            (match pretty_ranked codes program with
             | [] => ""
             | (prev_rank, c0) :: rest =>
               pretty_emit program (program.getD prev_rank dummy_course).cpv c0 rest))
    ∧ (∀ rest : List Course,
        pretty_set {"LFS100", "COR109", "SCI113"}
          ([⟨"COR109", "Communication and Thought", 1101⟩, ⟨"SCI113", "", 1130⟩,
            ⟨"LFS100", "", 1130⟩] ++ rest) = "COR109  SCI113 =LFS100") := by
  constructor
  · intro codes program hne hprog
    refine ⟨List.sorted_insertionSort tuple_le _, ?_, ?_, ?_, ?_⟩
    · exact (List.sorted_insertionSort tuple_le _).map Prod.fst
        (fun a b hab => by
          rcases hab with h | ⟨h, _⟩
          · exact Nat.le_of_lt h
          · exact Nat.le_of_eq h)
    · have hp : (pretty_ranked codes program).Perm
          ((sortCodes codes).map fun c => (get_rank c program, c)) :=
        List.perm_insertionSort tuple_le _
      have := hp.map Prod.snd
      rwa [List.map_map, show (Prod.snd ∘ fun c => (get_rank c program, c)) = id from rfl,
        List.map_id] at this
    · intro pr hpr
      rw [pretty_ranked, List.mem_insertionSort, List.mem_map] at hpr
      obtain ⟨c, _, rfl⟩ := hpr
      rfl
    · obtain ⟨x, hx⟩ := hne
      have hmem : x ∈ sortCodes codes := mem_sortCodes.mpr hx
      have hlen1 : ¬ (sortCodes codes).length = 0 := by
        intro h
        rw [List.length_eq_zero] at h
        rw [h] at hmem
        cases hmem
      have hlen2 : ¬ program.length = 0 := by
        rw [List.length_eq_zero]
        exact hprog
      unfold pretty_set pretty pretty_ranked
      rw [if_neg hlen1, if_pos hlen2]
  · intro rest
    rfl

theorem claim_C5_pretty_witness :
    List.Pairwise tuple_le
      (pretty_ranked {"LFS100", "COR109", "SCI113"}
        [⟨"COR109", "Communication and Thought", 1101⟩, ⟨"SCI113", "", 1130⟩,
         ⟨"LFS100", "", 1130⟩])
    ∧ ((pretty_ranked {"LFS100", "COR109", "SCI113"}
        [⟨"COR109", "Communication and Thought", 1101⟩, ⟨"SCI113", "", 1130⟩,
         ⟨"LFS100", "", 1130⟩]).map Prod.fst).Pairwise (· ≤ ·)
    ∧ ((pretty_ranked {"LFS100", "COR109", "SCI113"}
        [⟨"COR109", "Communication and Thought", 1101⟩, ⟨"SCI113", "", 1130⟩,
         ⟨"LFS100", "", 1130⟩]).map Prod.snd).Perm
        (sortCodes {"LFS100", "COR109", "SCI113"})
    ∧ (∀ pr ∈ pretty_ranked {"LFS100", "COR109", "SCI113"}
        [⟨"COR109", "Communication and Thought", 1101⟩, ⟨"SCI113", "", 1130⟩,
         ⟨"LFS100", "", 1130⟩],
        pr.1 = get_rank pr.2
          [⟨"COR109", "Communication and Thought", 1101⟩, ⟨"SCI113", "", 1130⟩,
           ⟨"LFS100", "", 1130⟩])
    ∧ pretty_set {"LFS100", "COR109", "SCI113"}
        [⟨"COR109", "Communication and Thought", 1101⟩, ⟨"SCI113", "", 1130⟩,
         ⟨"LFS100", "", 1130⟩] =
        (match pretty_ranked {"LFS100", "COR109", "SCI113"}
          [⟨"COR109", "Communication and Thought", 1101⟩, ⟨"SCI113", "", 1130⟩,
           ⟨"LFS100", "", 1130⟩] with
         | [] => ""
         | (prev_rank, c0) :: rest =>
           pretty_emit [⟨"COR109", "Communication and Thought", 1101⟩, ⟨"SCI113", "", 1130⟩,
             ⟨"LFS100", "", 1130⟩] (([⟨"COR109", "Communication and Thought", 1101⟩,
               ⟨"SCI113", "", 1130⟩, (⟨"LFS100", "", 1130⟩ : Course)].getD prev_rank
                 dummy_course)).cpv c0 rest) :=
  claim_C5_pretty.1 {"LFS100", "COR109", "SCI113"}
    [⟨"COR109", "Communication and Thought", 1101⟩, ⟨"SCI113", "", 1130⟩,
     ⟨"LFS100", "", 1130⟩] ⟨"COR109", by decide⟩ (by decide)
